import Mathlib

/-! Verification of the mount-table diff engine of node-disk-manager
(pkg/mount/libmount/mount_table_diff.go).

The diff engine compares two snapshots of the Linux mount table and
classifies every change as a Mount, Umount, Move or Remount.  The file
embeds the Go source shallowly: `Filesystem` values replace the shared
`*Filesystem` pointers (entries are read-only during a diff), the two
loops of `GenerateDiff` become structural recursions over lists, and the
in-place reclassification of a diff entry (done through a pointer in Go)
becomes an update at the index returned by the search.  A separate
explicit-store fragment models the pointer/copy behaviour of the
`GetOldFs`/`GetNewFs` accessors.
-/

namespace LibMount

/-- Modelled from the spec: a `Filesystem` entry (the struct itself and its
accessors live outside the visible source; §3 of the spec lists exactly the
fields `ID`, `Source`, `Target`, `VFSOptions`, `FSOptions`). -/
structure Filesystem where
  id : Int
  source : String
  target : String
  vfsOptions : String
  fsOptions : String
deriving DecidableEq, Repr

/-- Modelled from the spec: read-only accessor for `ID`. -/
def Filesystem.GetID (fs : Filesystem) : Int := fs.id

/-- Modelled from the spec: read-only accessor for `Source`. -/
def Filesystem.GetSource (fs : Filesystem) : String := fs.source

/-- Modelled from the spec: read-only accessor for `Target`. -/
def Filesystem.GetTarget (fs : Filesystem) : String := fs.target

/-- Modelled from the spec: read-only accessor for `VFSOptions`. -/
def Filesystem.GetVFSOptions (fs : Filesystem) : String := fs.vfsOptions

/-- Modelled from the spec: read-only accessor for `FSOptions`. -/
def Filesystem.GetFSOptions (fs : Filesystem) : String := fs.fsOptions

/-- Modelled from the spec: a mount table is an ordered sequence of
`Filesystem` entries. -/
structure MountTab where
  entries : List Filesystem
deriving Repr

/-- Modelled from the spec: `Size()` returns the number of entries. -/
def MountTab.Size (mt : MountTab) : Nat := mt.entries.length

/-- Modelled from the spec: filter predicates are composable match
functions over `Filesystem` entries. -/
abbrev FsFilter : Type := Filesystem → Bool

/-- Modelled from the spec: `SourceFilter(value)` matches entries whose
`Source` equals `value`. -/
def SourceFilter (value : String) : FsFilter := fun fs => fs.GetSource == value

/-- Modelled from the spec: `TargetFilter(value)` matches entries whose
`Target` equals `value`. -/
def TargetFilter (value : String) : FsFilter := fun fs => fs.GetTarget == value

/-- Modelled from the spec: `Find(predicates...)` returns the first entry
satisfying the logical AND of all given predicates, or `none`. -/
def MountTab.Find (mt : MountTab) (filters : List FsFilter) : Option Filesystem :=
  mt.entries.find? (fun fs => filters.all (fun f => f fs))

/-- The four change kinds (`MountActionMount`, `MountActionUmount`,
`MountActionMove`, `MountActionRemount` in the source). -/
inductive MountAction where
  | mount
  | umount
  | move
  | remount
deriving DecidableEq, Repr

/-- `MountTabDiffEntry`: one change entry; `oldFs`/`newFs` are `*Filesystem`
in the source, embedded as `Option Filesystem`. -/
structure MountTabDiffEntry where
  oldFs : Option Filesystem
  newFs : Option Filesystem
  action : MountAction
deriving DecidableEq, Repr

/-- `MountTabDiff` is the list of all changes between two mount tabs. -/
abbrev MountTabDiff : Type := List MountTabDiffEntry

/-- `NewMountTabDiff` returns a new and empty `MountTabDiff`. -/
def NewMountTabDiff : MountTabDiff := ([] : List MountTabDiffEntry)

/-- `AddDiffEntry` appends a new entry built from the parameters. -/
def AddDiffEntry (md : MountTabDiff) (oldFs newFs : Option Filesystem)
    (action : MountAction) : MountTabDiff :=
  List.append md [MountTabDiffEntry.mk oldFs newFs action]

/-- The predicate of `getMountEntry`: a diff entry whose action is `Mount`,
whose `newFs` is non-nil and has the given `ID` and `Source`. -/
def mountEntryMatch (source : String) (id : Int) (e : MountTabDiffEntry) : Bool :=
  e.action == MountAction.mount &&
    (match e.newFs with
     | some n => n.GetID == id && n.GetSource == source
     | none => false)

/-- Index of the first element of a list satisfying `p`, if any. -/
def firstIdx {α : Type} (p : α → Bool) : List α → Option Nat
  | [] => none
  | a :: as => if p a then some 0 else Option.map (fun i => i + 1) (firstIdx p as)

/-- `getMountEntry` returns (a pointer to) the first diff entry satisfying
`mountEntryMatch`; the embedding returns its index so that the in-place
mutation `de.oldFs = oldFs; de.action = MountActionMove` can be expressed
as an update at that index. -/
def getMountEntry (md : MountTabDiff) (source : String) (id : Int) : Option Nat :=
  firstIdx (mountEntryMatch source id) md

/-- Update the element at index `i` (the effect of mutating through the
pointer `getMountEntry` returned). -/
def modifyAt {α : Type} : List α → Nat → (α → α) → List α
  | [], _, _ => []
  | a :: as, 0, f => f a :: as
  | a :: as, n + 1, f => a :: modifyAt as n f

/-- Body of the first loop of `GenerateDiff` ("search newly mounted or
modified entries"), for one entry `newFs` of the new table. -/
def pass1Step (oldTab : MountTab) (md : MountTabDiff) (newFs : Filesystem) :
    MountTabDiff :=
  match oldTab.Find [SourceFilter newFs.GetSource, TargetFilter newFs.GetTarget] with
  | none => AddDiffEntry md none (some newFs) MountAction.mount
  | some oldFs =>
      if oldFs.GetVFSOptions ≠ newFs.GetVFSOptions ∨
          oldFs.GetFSOptions ≠ newFs.GetFSOptions then
        AddDiffEntry md (some oldFs) (some newFs) MountAction.remount
      else
        md

/-- The first loop of `GenerateDiff`, iterating the new table. -/
def pass1Aux (oldTab : MountTab) : List Filesystem → MountTabDiff → MountTabDiff
  | [], md => md
  | n :: ns, md => pass1Aux oldTab ns (pass1Step oldTab md n)

/-- Pass 1 of `GenerateDiff` started from the empty diff list. -/
def pass1 (oldTab : MountTab) (newTab : MountTab) : MountTabDiff :=
  pass1Aux oldTab newTab.entries NewMountTabDiff

/-- The in-place mutation performed on the diff entry `getMountEntry`
found: `de.oldFs = oldFs; de.action = MountActionMove` (its `newFs` is
left untouched). -/
def moveReclassify (oldFs : Filesystem) (e : MountTabDiffEntry) : MountTabDiffEntry :=
  { e with oldFs := some oldFs, action := MountAction.move }

/-- Body of the second loop of `GenerateDiff` ("search umounted or moved
entries"), for one entry `oldFs` of the old table. -/
def pass2Step (newTab : MountTab) (md : MountTabDiff) (oldFs : Filesystem) :
    MountTabDiff :=
  match newTab.Find [SourceFilter oldFs.GetSource, TargetFilter oldFs.GetTarget] with
  | some _ => md
  | none =>
      match getMountEntry md oldFs.GetSource oldFs.GetID with
      | none => AddDiffEntry md (some oldFs) none MountAction.umount
      | some i => modifyAt md i (moveReclassify oldFs)

/-- The second loop of `GenerateDiff`, iterating the old table. -/
def pass2Aux (newTab : MountTab) : List Filesystem → MountTabDiff → MountTabDiff
  | [], md => md
  | o :: os, md => pass2Aux newTab os (pass2Step newTab md o)

/-- `GenerateDiff` returns the list of changes between the old mount tab and
the new mount tab; a `nil` argument (here `none`) is treated as a mount tab
with no entries. -/
def GenerateDiff (oldArg newArg : Option MountTab) : MountTabDiff :=
  let oldTab := oldArg.getD (MountTab.mk [])
  let newTab := newArg.getD (MountTab.mk [])
  if newTab.Size = 0 ∧ oldTab.Size = 0 then
    NewMountTabDiff
  else if oldTab.Size = 0 then
    pass1Aux oldTab newTab.entries NewMountTabDiff
  else if newTab.Size = 0 then
    pass2Aux newTab oldTab.entries NewMountTabDiff
  else
    pass2Aux newTab oldTab.entries (pass1Aux oldTab newTab.entries NewMountTabDiff)

/-- `GetAction` returns the type of change. -/
def GetAction (mde : MountTabDiffEntry) : MountAction := mde.action

/-- The source picked for a diff entry by `ListSources`: `oldFs.Source` for
a `Umount` entry, `newFs.Source` otherwise.  The Go code dereferences the
pointer unconditionally, so an absent side yields `none` (a crash). -/
def diffSource (e : MountTabDiffEntry) : Option String :=
  if e.action == MountAction.umount then
    Option.map Filesystem.GetSource e.oldFs
  else
    Option.map Filesystem.GetSource e.newFs

/-- Insertion into the `uniqueSources` set: a map insert keeps one cell per
key, embedded as first-occurrence deduplication. -/
def insertUnique (l : List String) (s : String) : List String :=
  if s ∈ l then l else List.append l [s]

/-- The per-entry sources of the whole diff list, in order; `none` when some
entry's required side is absent (the Go code would dereference nil). -/
def diffSources : MountTabDiff → Option (List String)
  | [] => some []
  | e :: es =>
      match diffSource e, diffSources es with
      | some s, some ss => some (s :: ss)
      | _, _ => none

/-- `ListSources` lists all affected sources in the diff: the per-entry
source, deduplicated (the `uniqueSources` map) and sorted ascending
(`sort.Strings`).  Go map iteration order is arbitrary but the final
`sort.Strings` makes the result the sorted list of the distinct sources,
which is what the embedding computes. -/
def ListSources (md : MountTabDiff) : Option (List String) :=
  match diffSources md with
  | none => none
  | some srcs =>
      some (List.insertionSort (fun a b => a ≤ b) (srcs.foldl insertUnique []))

example :
    GenerateDiff
      (some (MountTab.mk [Filesystem.mk 5 "/dev/sdb1" "/mnt/a" "rw" "rw"]))
      (some (MountTab.mk [Filesystem.mk 5 "/dev/sdb1" "/mnt/b" "rw" "rw"])) =
    [MountTabDiffEntry.mk (some (Filesystem.mk 5 "/dev/sdb1" "/mnt/a" "rw" "rw"))
      (some (Filesystem.mk 5 "/dev/sdb1" "/mnt/b" "rw" "rw")) MountAction.move] := by
  decide

/-! Basic lemmas about the list helpers. -/

theorem AddDiffEntry_eq (md : MountTabDiff) (o n : Option Filesystem) (a : MountAction) :
    AddDiffEntry md o n a = md ++ [MountTabDiffEntry.mk o n a] := rfl

theorem firstIdx_eq_none {α : Type} {p : α → Bool} {l : List α} :
    firstIdx p l = none ↔ ∀ a ∈ l, p a = false := by
  induction l with
  | nil => simp [firstIdx]
  | cons a as ih =>
    cases hpa : p a with
    | true => simp [firstIdx, hpa]
    | false => simp [firstIdx, hpa, Option.map_eq_none', ih]

theorem firstIdx_spec {α : Type} {p : α → Bool} :
    ∀ {l : List α} {i : Nat}, firstIdx p l = some i →
      ∃ a, l.get? i = some a ∧ p a = true ∧
        ∀ j, j < i → ∀ b, l.get? j = some b → p b = false := by
  intro l
  induction l with
  | nil => intro i h; simp [firstIdx] at h
  | cons a as ih =>
    intro i h
    cases hpa : p a with
    | true =>
      rw [firstIdx, hpa] at h
      simp at h
      subst h
      exact ⟨a, rfl, hpa, by intro j hj b _; omega⟩
    | false =>
      rw [firstIdx, hpa] at h
      simp [Option.map_eq_some'] at h
      obtain ⟨i', hi', rfl⟩ := h
      obtain ⟨b, hb, hpb, hmin⟩ := ih hi'
      refine ⟨b, by simpa using hb, hpb, ?_⟩
      intro j hj c hc
      cases j with
      | zero => simp at hc; subst hc; exact hpa
      | succ j' =>
        exact hmin j' (Nat.lt_of_succ_lt_succ hj) c (by simpa using hc)

theorem firstIdx_lt_length {α : Type} {p : α → Bool} {l : List α} {i : Nat}
    (h : firstIdx p l = some i) : i < l.length := by
  obtain ⟨a, ha, -, -⟩ := firstIdx_spec h
  exact (List.get?_eq_some.mp ha).1

theorem firstIdx_append_right_none {α : Type} {p : α → Bool} {l₂ : List α}
    (h : ∀ a ∈ l₂, p a = false) :
    ∀ l₁ : List α, firstIdx p (l₁ ++ l₂) = firstIdx p l₁ := by
  intro l₁
  induction l₁ with
  | nil => simpa [firstIdx] using firstIdx_eq_none.mpr h
  | cons a as ih =>
    cases hpa : p a with
    | true => simp [firstIdx, hpa]
    | false => simp [firstIdx, hpa, ih]

theorem length_modifyAt {α : Type} :
    ∀ (l : List α) (i : Nat) (f : α → α), (modifyAt l i f).length = l.length := by
  intro l
  induction l with
  | nil => intro i f; rfl
  | cons a as ih =>
    intro i f
    cases i with
    | zero => rfl
    | succ i' => simpa [modifyAt] using ih i' f

theorem get?_modifyAt_self {α : Type} :
    ∀ (l : List α) (i : Nat) (f : α → α),
      (modifyAt l i f).get? i = Option.map f (l.get? i) := by
  intro l
  induction l with
  | nil => intro i f; cases i <;> rfl
  | cons a as ih =>
    intro i f
    cases i with
    | zero => rfl
    | succ i' => simpa [modifyAt] using ih i' f

theorem get?_modifyAt_ne {α : Type} :
    ∀ (l : List α) (i j : Nat) (f : α → α), i ≠ j →
      (modifyAt l i f).get? j = l.get? j := by
  intro l
  induction l with
  | nil => intro i j f _; cases i <;> rfl
  | cons a as ih =>
    intro i j f hij
    cases i with
    | zero =>
      cases j with
      | zero => exact absurd rfl hij
      | succ j' => rfl
    | succ i' =>
      cases j with
      | zero => rfl
      | succ j' => simpa [modifyAt] using ih i' j' f (by omega)

theorem modifyAt_append_left {α : Type} :
    ∀ (l₁ l₂ : List α) (i : Nat) (f : α → α), i < l₁.length →
      modifyAt (l₁ ++ l₂) i f = modifyAt l₁ i f ++ l₂ := by
  intro l₁
  induction l₁ with
  | nil => intro l₂ i f h; simp at h
  | cons a as ih =>
    intro l₂ i f h
    cases i with
    | zero => rfl
    | succ i' => simpa [modifyAt] using ih l₂ i' f (by simpa using h)

theorem mem_modifyAt {α : Type} {l : List α} {i : Nat} {f : α → α} {e : α}
    (h : e ∈ modifyAt l i f) : e ∈ l ∨ ∃ a, l.get? i = some a ∧ e = f a := by
  obtain ⟨j, hj⟩ := List.mem_iff_get?.mp h
  by_cases hij : i = j
  · subst hij
    rw [get?_modifyAt_self] at hj
    obtain ⟨a, ha, rfl⟩ := Option.map_eq_some'.mp hj
    exact Or.inr ⟨a, ha, rfl⟩
  · rw [get?_modifyAt_ne l i j f hij] at hj
    exact Or.inl (List.mem_iff_get?.mpr ⟨j, hj⟩)

/-! Decomposition lemmas for the two passes. -/

theorem pass1Step_acc (ot : MountTab) (md : MountTabDiff) (n : Filesystem) :
    pass1Step ot md n = md ++ pass1Step ot [] n := by
  unfold pass1Step
  cases ot.Find [SourceFilter n.GetSource, TargetFilter n.GetTarget] with
  | none => simp [AddDiffEntry_eq]
  | some o =>
    by_cases h : o.GetVFSOptions ≠ n.GetVFSOptions ∨ o.GetFSOptions ≠ n.GetFSOptions
    · simp [h, AddDiffEntry_eq]
    · simp [h]

theorem pass1Step_eq_none {ot : MountTab} {md : MountTabDiff} {n : Filesystem}
    (hf : ot.Find [SourceFilter n.GetSource, TargetFilter n.GetTarget] = none) :
    pass1Step ot md n = md ++ [MountTabDiffEntry.mk none (some n) MountAction.mount] := by
  unfold pass1Step
  rw [hf]
  rfl

theorem pass1Step_eq_some {ot : MountTab} {md : MountTabDiff} {n o : Filesystem}
    (hf : ot.Find [SourceFilter n.GetSource, TargetFilter n.GetTarget] = some o) :
    pass1Step ot md n =
      if o.GetVFSOptions ≠ n.GetVFSOptions ∨ o.GetFSOptions ≠ n.GetFSOptions then
        md ++ [MountTabDiffEntry.mk (some o) (some n) MountAction.remount]
      else md := by
  unfold pass1Step
  rw [hf]
  rfl

theorem pass1Aux_acc (ot : MountTab) :
    ∀ (ns : List Filesystem) (md : MountTabDiff),
      pass1Aux ot ns md = md ++ pass1Aux ot ns [] := by
  intro ns
  induction ns with
  | nil => intro md; simp [pass1Aux]
  | cons n ns ih =>
    intro md
    show pass1Aux ot ns (pass1Step ot md n) = md ++ pass1Aux ot ns (pass1Step ot [] n)
    rw [ih (pass1Step ot md n), ih (pass1Step ot [] n), pass1Step_acc]
    simp

theorem pass2Aux_concat (nt : MountTab) :
    ∀ (xs ys : List Filesystem) (md : MountTabDiff),
      pass2Aux nt (xs ++ ys) md = pass2Aux nt ys (pass2Aux nt xs md) := by
  intro xs
  induction xs with
  | nil => intro ys md; rfl
  | cons x xs ih => intro ys md; simpa [pass2Aux] using ih ys (pass2Step nt md x)

/-- `GenerateDiff` always equals pass 2 applied to the result of pass 1 (the
degenerate early returns in the source coincide with that composition). -/
theorem GenerateDiff_eq_passes (oldArg newArg : Option MountTab) :
    GenerateDiff oldArg newArg =
      pass2Aux (newArg.getD (MountTab.mk []))
        (oldArg.getD (MountTab.mk [])).entries
        (pass1 (oldArg.getD (MountTab.mk [])) (newArg.getD (MountTab.mk []))) := by
  unfold GenerateDiff pass1
  set ot := oldArg.getD (MountTab.mk []) with hot
  set nt := newArg.getD (MountTab.mk []) with hnt
  simp only []
  split_ifs with h1 h2 h3
  · obtain ⟨hn, ho⟩ := h1
    have hne : nt.entries = [] := List.length_eq_zero.mp hn
    have hoe : ot.entries = [] := List.length_eq_zero.mp ho
    simp [hne, hoe, pass1Aux, pass2Aux]
  · have hoe : ot.entries = [] := List.length_eq_zero.mp h2
    simp [hoe, pass2Aux]
  · have hne : nt.entries = [] := List.length_eq_zero.mp h3
    simp [hne, pass1Aux]
  · rfl

/-! Degenerate cases of the diff engine. -/

theorem Find_empty (filters : List FsFilter) :
    MountTab.Find (MountTab.mk []) filters = none := rfl

theorem pass1Aux_empty_old :
    ∀ (ns : List Filesystem) (md : MountTabDiff),
      pass1Aux (MountTab.mk []) ns md =
        md ++ ns.map (fun n => MountTabDiffEntry.mk none (some n) MountAction.mount) := by
  intro ns
  induction ns with
  | nil => intro md; simp [pass1Aux]
  | cons n ns ih =>
    intro md
    show pass1Aux (MountTab.mk []) ns (pass1Step (MountTab.mk []) md n) = _
    rw [ih]
    have hstep : pass1Step (MountTab.mk []) md n =
        md ++ [MountTabDiffEntry.mk none (some n) MountAction.mount] := by
      unfold pass1Step
      rw [Find_empty]
      rfl
    rw [hstep]
    simp

theorem mountEntryMatch_eq_false_of_action {source : String} {id : Int}
    {e : MountTabDiffEntry} (h : e.action ≠ MountAction.mount) :
    mountEntryMatch source id e = false := by
  unfold mountEntryMatch
  cases ha : e.action == MountAction.mount with
  | false => rfl
  | true => exact absurd (eq_of_beq ha) h

theorem pass2Aux_empty_new :
    ∀ (os : List Filesystem) (md : MountTabDiff),
      (∀ e ∈ md, e.action ≠ MountAction.mount) →
      pass2Aux (MountTab.mk []) os md =
        md ++ os.map (fun o => MountTabDiffEntry.mk (some o) none MountAction.umount) := by
  intro os
  induction os with
  | nil => intro md _; simp [pass2Aux]
  | cons o os ih =>
    intro md hmd
    have hget : getMountEntry md o.GetSource o.GetID = none :=
      firstIdx_eq_none.mpr (fun e he => mountEntryMatch_eq_false_of_action (hmd e he))
    have hstep : pass2Step (MountTab.mk []) md o =
        md ++ [MountTabDiffEntry.mk (some o) none MountAction.umount] := by
      unfold pass2Step
      rw [Find_empty, hget]
      rfl
    show pass2Aux (MountTab.mk []) os (pass2Step (MountTab.mk []) md o) = _
    rw [hstep, ih]
    · simp
    · intro e he
      rcases List.mem_append.mp he with h | h
      · exact hmd e h
      · simp at h
        subst h
        simp

/-- C4: `GenerateDiff` is total and never fails: a `nil` table argument is
treated exactly like a table with zero entries; with both tables empty or
nil it returns an empty diff list; with an empty old table it returns one
`Mount` entry per new-table entry (`oldFs` absent), in the new table's
order; with an empty new table it returns one `Umount` entry per old-table
entry (`newFs` absent), in the old table's order. -/
theorem generateDiff_total_degenerate :
    (∀ x, GenerateDiff none x = GenerateDiff (some (MountTab.mk [])) x) ∧
    (∀ x, GenerateDiff x none = GenerateDiff x (some (MountTab.mk []))) ∧
    GenerateDiff none none = [] ∧
    (∀ nt : MountTab, GenerateDiff (some (MountTab.mk [])) (some nt) =
      nt.entries.map (fun n => MountTabDiffEntry.mk none (some n) MountAction.mount)) ∧
    (∀ ot : MountTab, GenerateDiff (some ot) (some (MountTab.mk [])) =
      ot.entries.map (fun o => MountTabDiffEntry.mk (some o) none MountAction.umount)) := by
  refine ⟨fun x => rfl, fun x => rfl, rfl, fun nt => ?_, fun ot => ?_⟩
  · rw [GenerateDiff_eq_passes]
    simp only [Option.getD_some]
    show pass2Aux nt ([] : List Filesystem) _ = _
    rw [show pass2Aux nt ([] : List Filesystem) = id from rfl]
    unfold pass1
    rw [pass1Aux_empty_old]
    simp [NewMountTabDiff]
  · rw [GenerateDiff_eq_passes]
    simp only [Option.getD_some]
    unfold pass1
    show pass2Aux (MountTab.mk []) ot.entries (pass1Aux ot [] NewMountTabDiff) = _
    rw [show pass1Aux ot [] NewMountTabDiff = NewMountTabDiff from rfl]
    rw [pass2Aux_empty_new ot.entries NewMountTabDiff (by intro e he; simp [NewMountTabDiff] at he)]
    simp [NewMountTabDiff]

/-! Characterization of `Find` with a source filter and a target filter. -/

theorem Find_pair_some {mt : MountTab} {s t : String} {o : Filesystem}
    (h : mt.Find [SourceFilter s, TargetFilter t] = some o) :
    o ∈ mt.entries ∧ o.GetSource = s ∧ o.GetTarget = t := by
  have hmem : o ∈ mt.entries := List.mem_of_find?_eq_some h
  have hp := List.find?_some h
  simp [SourceFilter, TargetFilter] at hp
  exact ⟨hmem, hp.1, hp.2⟩

theorem Find_pair_none {mt : MountTab} {s t : String} :
    mt.Find [SourceFilter s, TargetFilter t] = none ↔
      ∀ o ∈ mt.entries, ¬(o.GetSource = s ∧ o.GetTarget = t) := by
  unfold MountTab.Find
  rw [List.find?_eq_none]
  constructor
  · intro h o ho hc
    have := h o ho
    simp [SourceFilter, TargetFilter] at this
    exact absurd hc.2 (this hc.1)
  · intro h o ho
    have := h o ho
    simp [SourceFilter, TargetFilter]
    intro hs ht
    exact this ⟨hs, ht⟩

/-! Shape of the entries produced by pass 1. -/

theorem pass1Aux_shape (ot : MountTab) :
    ∀ (ns : List Filesystem), ∀ e ∈ pass1Aux ot ns [],
      (∃ n, n ∈ ns ∧ e = MountTabDiffEntry.mk none (some n) MountAction.mount) ∨
      (∃ o n, o ∈ ot.entries ∧ n ∈ ns ∧
        e = MountTabDiffEntry.mk (some o) (some n) MountAction.remount) := by
  intro ns
  induction ns with
  | nil => intro e he; simp [pass1Aux] at he
  | cons n ns ih =>
    intro e he
    rw [show pass1Aux ot (n :: ns) [] = pass1Aux ot ns (pass1Step ot [] n) from rfl,
      pass1Aux_acc] at he
    rcases List.mem_append.mp he with h | h
    · cases hf : ot.Find [SourceFilter n.GetSource, TargetFilter n.GetTarget] with
      | none =>
        rw [pass1Step_eq_none hf] at h
        simp at h
        exact Or.inl ⟨n, List.mem_cons_self n ns, h⟩
      | some o =>
        rw [pass1Step_eq_some hf] at h
        by_cases hopt : o.GetVFSOptions ≠ n.GetVFSOptions ∨ o.GetFSOptions ≠ n.GetFSOptions
        · rw [if_pos hopt] at h
          simp at h
          exact Or.inr ⟨o, n, (Find_pair_some hf).1, List.mem_cons_self n ns, h⟩
        · rw [if_neg hopt] at h
          simp at h
    · rcases ih e h with ⟨m, hm, he'⟩ | ⟨o, m, ho, hm, he'⟩
      · exact Or.inl ⟨m, List.mem_cons_of_mem n hm, he'⟩
      · exact Or.inr ⟨o, m, ho, List.mem_cons_of_mem n hm, he'⟩

theorem mountEntryMatch_true {s : String} {id : Int} {e : MountTabDiffEntry} :
    mountEntryMatch s id e = true ↔
      e.action = MountAction.mount ∧
        ∃ m, e.newFs = some m ∧ m.GetID = id ∧ m.GetSource = s := by
  cases hnf : e.newFs with
  | none => simp [mountEntryMatch, hnf]
  | some m => simp [mountEntryMatch, hnf, Filesystem.GetID, Filesystem.GetSource, and_assoc]

/-- C3: Pass 1 of `GenerateDiff`, per new-table entry `n`: when an old entry
with identical `Source` and `Target` is found and the `VFSOptions` or the
`FSOptions` differ, a `Remount` entry with `oldFs` the matched old entry and
`newFs` the new entry is appended; when both option strings are identical no
diff entry is recorded; when no old entry matches, a `Mount` entry with
`oldFs` absent and `newFs` the new entry is appended. -/
theorem pass1Step_classification (ot : MountTab) (md : MountTabDiff) (n : Filesystem) :
    (∀ o, ot.Find [SourceFilter n.GetSource, TargetFilter n.GetTarget] = some o →
      (o ∈ ot.entries ∧ o.GetSource = n.GetSource ∧ o.GetTarget = n.GetTarget) ∧
      ((o.GetVFSOptions ≠ n.GetVFSOptions ∨ o.GetFSOptions ≠ n.GetFSOptions) →
        pass1Step ot md n =
          md ++ [MountTabDiffEntry.mk (some o) (some n) MountAction.remount]) ∧
      ((o.GetVFSOptions = n.GetVFSOptions ∧ o.GetFSOptions = n.GetFSOptions) →
        pass1Step ot md n = md)) ∧
    (ot.Find [SourceFilter n.GetSource, TargetFilter n.GetTarget] = none →
      pass1Step ot md n =
        md ++ [MountTabDiffEntry.mk none (some n) MountAction.mount]) ∧
    (ot.Find [SourceFilter n.GetSource, TargetFilter n.GetTarget] = none ↔
      ∀ o ∈ ot.entries, ¬(o.GetSource = n.GetSource ∧ o.GetTarget = n.GetTarget)) := by
  refine ⟨?_, ?_, Find_pair_none⟩
  · intro o hf
    refine ⟨Find_pair_some hf, ?_, ?_⟩
    · intro hopt
      rw [pass1Step_eq_some hf, if_pos hopt]
    · intro hopt
      rw [pass1Step_eq_some hf, if_neg]
      simp [hopt.1, hopt.2]
  · exact fun hf => pass1Step_eq_none hf

theorem pass1Step_classification_witness :
    pass1Step (MountTab.mk [Filesystem.mk 1 "/dev/sda1" "/mnt/a" "rw,relatime" "rw"])
      []
      (Filesystem.mk 1 "/dev/sda1" "/mnt/a" "ro,relatime" "rw") =
      [MountTabDiffEntry.mk
        (some (Filesystem.mk 1 "/dev/sda1" "/mnt/a" "rw,relatime" "rw"))
        (some (Filesystem.mk 1 "/dev/sda1" "/mnt/a" "ro,relatime" "rw"))
        MountAction.remount] :=
  (((pass1Step_classification
      (MountTab.mk [Filesystem.mk 1 "/dev/sda1" "/mnt/a" "rw,relatime" "rw"])
      []
      (Filesystem.mk 1 "/dev/sda1" "/mnt/a" "ro,relatime" "rw")).1
    (Filesystem.mk 1 "/dev/sda1" "/mnt/a" "rw,relatime" "rw") (by decide)).2.1
    (by decide)).trans (by decide)

/-! Branch lemmas for pass 2. -/

theorem pass2Step_eq_found {nt : MountTab} {md : MountTabDiff} {o x : Filesystem}
    (hf : nt.Find [SourceFilter o.GetSource, TargetFilter o.GetTarget] = some x) :
    pass2Step nt md o = md := by
  unfold pass2Step
  rw [hf]

theorem pass2Step_eq_umount {nt : MountTab} {md : MountTabDiff} {o : Filesystem}
    (hf : nt.Find [SourceFilter o.GetSource, TargetFilter o.GetTarget] = none)
    (hg : getMountEntry md o.GetSource o.GetID = none) :
    pass2Step nt md o = md ++ [MountTabDiffEntry.mk (some o) none MountAction.umount] := by
  unfold pass2Step
  rw [hf, hg]
  rfl

theorem pass2Step_eq_move {nt : MountTab} {md : MountTabDiff} {o : Filesystem} {i : Nat}
    (hf : nt.Find [SourceFilter o.GetSource, TargetFilter o.GetTarget] = none)
    (hg : getMountEntry md o.GetSource o.GetID = some i) :
    pass2Step nt md o = modifyAt md i (moveReclassify o) := by
  unfold pass2Step
  rw [hf, hg]

/-- Fixtures used by the witnesses: a mount instance that keeps its ID and
Source but changes Target between the two snapshots. -/
def fsOldA : Filesystem := Filesystem.mk 5 "/dev/sdb1" "/mnt/a" "rw,relatime" "rw"

def fsNewB : Filesystem := Filesystem.mk 5 "/dev/sdb1" "/mnt/b" "rw,relatime" "rw"

def tabOldA : MountTab := MountTab.mk [fsOldA]

def tabNewB : MountTab := MountTab.mk [fsNewB]

/-- C1: in Pass 2 of `GenerateDiff`, for an old entry `o` whose
(Source, Target) pair matches no new-table entry: if the diff list built by
Pass 1 holds a `Mount` entry whose `newFs` has the same ID and Source as
`o`, that entry is reclassified in place to `Move` (its `oldFs` becomes `o`,
its `newFs` is untouched) and nothing is appended; otherwise one `Umount`
entry for `o` is appended.  When `o`'s ID occurs in no new-table entry, the
`Umount` branch is always taken. -/
theorem pass2Step_umount_or_move (ot nt : MountTab) (o : Filesystem)
    (hnm : nt.Find [SourceFilter o.GetSource, TargetFilter o.GetTarget] = none) :
    (∀ i, getMountEntry (pass1 ot nt) o.GetSource o.GetID = some i →
      pass2Step nt (pass1 ot nt) o = modifyAt (pass1 ot nt) i (moveReclassify o) ∧
      (pass2Step nt (pass1 ot nt) o).length = (pass1 ot nt).length ∧
      ∃ e, (pass1 ot nt).get? i = some e ∧
        e.action = MountAction.mount ∧
        (∃ m, e.newFs = some m ∧ m.GetID = o.GetID ∧ m.GetSource = o.GetSource) ∧
        (pass2Step nt (pass1 ot nt) o).get? i =
          some (MountTabDiffEntry.mk (some o) e.newFs MountAction.move)) ∧
    (getMountEntry (pass1 ot nt) o.GetSource o.GetID = none →
      pass2Step nt (pass1 ot nt) o =
        pass1 ot nt ++ [MountTabDiffEntry.mk (some o) none MountAction.umount]) ∧
    ((∀ m ∈ nt.entries, m.GetID ≠ o.GetID) →
      getMountEntry (pass1 ot nt) o.GetSource o.GetID = none ∧
      pass2Step nt (pass1 ot nt) o =
        pass1 ot nt ++ [MountTabDiffEntry.mk (some o) none MountAction.umount]) := by
  refine ⟨?_, ?_, ?_⟩
  · intro i hi
    refine ⟨pass2Step_eq_move hnm hi, ?_, ?_⟩
    · rw [pass2Step_eq_move hnm hi]
      exact length_modifyAt _ _ _
    · obtain ⟨e, he, hm, -⟩ := firstIdx_spec hi
      obtain ⟨hact, m, hnf, hid, hsrc⟩ := mountEntryMatch_true.mp hm
      refine ⟨e, he, hact, ⟨m, hnf, hid, hsrc⟩, ?_⟩
      rw [pass2Step_eq_move hnm hi, get?_modifyAt_self, he]
      rfl
  · intro hg
    exact pass2Step_eq_umount hnm hg
  · intro hid
    have hg : getMountEntry (pass1 ot nt) o.GetSource o.GetID = none := by
      apply firstIdx_eq_none.mpr
      intro e he
      cases hm : mountEntryMatch o.GetSource o.GetID e with
      | false => rfl
      | true =>
        exfalso
        obtain ⟨hact, m, hnf, hmid, -⟩ := mountEntryMatch_true.mp hm
        have he' : e ∈ pass1Aux ot nt.entries [] := he
        rcases pass1Aux_shape ot nt.entries e he' with ⟨n, hn, rfl⟩ | ⟨o', n, -, -, rfl⟩
        · have hnm2 : n = m := Option.some.inj hnf
          exact hid m (hnm2 ▸ hn) hmid
        · simp at hact
    exact ⟨hg, pass2Step_eq_umount hnm hg⟩

theorem pass2Step_umount_or_move_witness :
    pass2Step tabNewB (pass1 tabOldA tabNewB) fsOldA =
      modifyAt (pass1 tabOldA tabNewB) 0 (moveReclassify fsOldA) :=
  ((pass2Step_umount_or_move tabOldA tabNewB fsOldA (by decide)).1 0 (by decide)).1

/-! The presence invariant of diff entries. -/

/-- Presence invariant: `Mount` has only `newFs`, `Umount` has only `oldFs`,
`Move` and `Remount` have both. -/
def presenceOK (e : MountTabDiffEntry) : Prop :=
  match e.action with
  | MountAction.mount => e.oldFs = none ∧ e.newFs.isSome = true
  | MountAction.umount => e.oldFs.isSome = true ∧ e.newFs = none
  | MountAction.move => e.oldFs.isSome = true ∧ e.newFs.isSome = true
  | MountAction.remount => e.oldFs.isSome = true ∧ e.newFs.isSome = true

theorem pass2Step_presence {nt : MountTab} {md : MountTabDiff} {o : Filesystem}
    (h : ∀ e ∈ md, presenceOK e) : ∀ e ∈ pass2Step nt md o, presenceOK e := by
  cases hf : nt.Find [SourceFilter o.GetSource, TargetFilter o.GetTarget] with
  | some x => rw [pass2Step_eq_found hf]; exact h
  | none =>
    cases hg : getMountEntry md o.GetSource o.GetID with
    | none =>
      rw [pass2Step_eq_umount hf hg]
      intro e he
      rcases List.mem_append.mp he with h' | h'
      · exact h e h'
      · simp at h'
        subst h'
        exact ⟨rfl, rfl⟩
    | some i =>
      rw [pass2Step_eq_move hf hg]
      intro e he
      rcases mem_modifyAt he with h' | ⟨a, ha, rfl⟩
      · exact h e h'
      · obtain ⟨a', ha', hm, -⟩ := firstIdx_spec hg
        rw [ha] at ha'
        cases ha'
        obtain ⟨-, m, hnf, -, -⟩ := mountEntryMatch_true.mp hm
        show presenceOK (MountTabDiffEntry.mk (some o) a.newFs MountAction.move)
        exact ⟨rfl, by rw [hnf]; rfl⟩

theorem pass2Aux_presence {nt : MountTab} :
    ∀ (os : List Filesystem) (md : MountTabDiff),
      (∀ e ∈ md, presenceOK e) → ∀ e ∈ pass2Aux nt os md, presenceOK e := by
  intro os
  induction os with
  | nil => intro md h e he; exact h e he
  | cons o os ih =>
    intro md h e he
    exact ih (pass2Step nt md o) (pass2Step_presence h) e he

theorem diff_presence_all (oldArg newArg : Option MountTab) :
    ∀ e ∈ GenerateDiff oldArg newArg, presenceOK e := by
  rw [GenerateDiff_eq_passes]
  apply pass2Aux_presence
  intro e he
  have he' : e ∈ pass1Aux (oldArg.getD (MountTab.mk []))
      (newArg.getD (MountTab.mk [])).entries [] := he
  rcases pass1Aux_shape _ _ e he' with ⟨n, -, rfl⟩ | ⟨o, n, -, -, rfl⟩
  · exact ⟨rfl, rfl⟩
  · exact ⟨rfl, rfl⟩

/-- C7: every diff entry returned by `GenerateDiff` satisfies the presence
invariant: `Mount` entries have `oldFs` absent and `newFs` present, `Umount`
entries the opposite, `Move` and `Remount` entries have both present. -/
theorem generateDiff_presence (oldArg newArg : Option MountTab) :
    ∀ e ∈ GenerateDiff oldArg newArg, presenceOK e :=
  diff_presence_all oldArg newArg

theorem generateDiff_presence_witness :
    presenceOK (MountTabDiffEntry.mk (some fsOldA) (some fsNewB) MountAction.move) :=
  generateDiff_presence (some tabOldA) (some tabNewB) _ (by decide)

/-! Structural identity of tables and uniqueness of (Source, Target) keys. -/

/-- Two entries are structurally identical when they agree on `Source`,
`Target`, `VFSOptions` and `FSOptions` (IDs may differ). -/
def structIdent (a b : Filesystem) : Prop :=
  a.GetSource = b.GetSource ∧ a.GetTarget = b.GetTarget ∧
    a.GetVFSOptions = b.GetVFSOptions ∧ a.GetFSOptions = b.GetFSOptions

/-- Two entries occupy different (Source, Target) keys. -/
def keyDistinct (a b : Filesystem) : Prop :=
  ¬(a.GetSource = b.GetSource ∧ a.GetTarget = b.GetTarget)

theorem forall2_exists_right {α β : Type} {R : α → β → Prop} {l₁ : List α} {l₂ : List β}
    (h : List.Forall₂ R l₁ l₂) : ∀ a ∈ l₁, ∃ b ∈ l₂, R a b := by
  induction h with
  | nil => intro a ha; simp at ha
  | cons hR _ ih =>
    intro a ha
    rcases List.mem_cons.mp ha with rfl | ha'
    · exact ⟨_, List.mem_cons_self _ _, hR⟩
    · obtain ⟨b, hb, hab⟩ := ih a ha'
      exact ⟨b, List.mem_cons_of_mem _ hb, hab⟩

theorem forall2_exists_left {α β : Type} {R : α → β → Prop} {l₁ : List α} {l₂ : List β}
    (h : List.Forall₂ R l₁ l₂) : ∀ b ∈ l₂, ∃ a ∈ l₁, R a b := by
  induction h with
  | nil => intro b hb; simp at hb
  | cons hR _ ih =>
    intro b hb
    rcases List.mem_cons.mp hb with rfl | hb'
    · exact ⟨_, List.mem_cons_self _ _, hR⟩
    · obtain ⟨a, ha, hab⟩ := ih b hb'
      exact ⟨a, List.mem_cons_of_mem _ ha, hab⟩

theorem find?_eq_some_of {α : Type} {p : α → Bool} {o : α} :
    ∀ {l : List α}, o ∈ l → p o = true → (∀ a ∈ l, p a = true → a = o) →
      l.find? p = some o := by
  intro l
  induction l with
  | nil => intro ho; simp at ho
  | cons c cs ih =>
    intro ho hpo huniq
    cases hpc : p c with
    | true =>
      rw [List.find?_cons_of_pos _ hpc]
      exact congrArg some (huniq c (List.mem_cons_self c cs) hpc)
    | false =>
      rw [List.find?_cons_of_neg _ (by simp [hpc])]
      have hoc : o ≠ c := fun h => by rw [h] at hpo; exact absurd hpo (by simp [hpc])
      have ho' : o ∈ cs := by
        rcases List.mem_cons.mp ho with h | h
        · exact absurd h hoc
        · exact h
      exact ih ho' hpo (fun a ha hpa => huniq a (List.mem_cons_of_mem c ha) hpa)

theorem pairwise_key_eq {l : List Filesystem} (hpw : List.Pairwise keyDistinct l) :
    ∀ {a b : Filesystem}, a ∈ l → b ∈ l →
      a.GetSource = b.GetSource ∧ a.GetTarget = b.GetTarget → a = b := by
  induction l with
  | nil => intro a b ha; simp at ha
  | cons c cs ih =>
    have hc := (List.pairwise_cons.mp hpw).1
    have hcs := (List.pairwise_cons.mp hpw).2
    intro a b ha hb hk
    rcases List.mem_cons.mp ha with rfl | ha'
    · rcases List.mem_cons.mp hb with rfl | hb'
      · rfl
      · exact absurd hk (hc b hb')
    · rcases List.mem_cons.mp hb with rfl | hb'
      · exact absurd ⟨hk.1.symm, hk.2.symm⟩ (hc a ha')
      · exact ih hcs ha' hb' hk

theorem Find_pair_eq_some_of_mem {mt : MountTab} {n o : Filesystem}
    (hpw : List.Pairwise keyDistinct mt.entries) (ho : o ∈ mt.entries)
    (hs : o.GetSource = n.GetSource) (ht : o.GetTarget = n.GetTarget) :
    mt.Find [SourceFilter n.GetSource, TargetFilter n.GetTarget] = some o := by
  apply find?_eq_some_of ho
  · simp [SourceFilter, TargetFilter, hs, ht]
  · intro a ha hpa
    simp [SourceFilter, TargetFilter] at hpa
    exact pairwise_key_eq hpw ha ho ⟨hpa.1.trans hs.symm, hpa.2.trans ht.symm⟩

theorem Find_pair_isSome_of_mem {mt : MountTab} {s t : String} {n : Filesystem}
    (hn : n ∈ mt.entries) (hs : n.GetSource = s) (ht : n.GetTarget = t) :
    ∃ x, mt.Find [SourceFilter s, TargetFilter t] = some x := by
  cases hf : mt.Find [SourceFilter s, TargetFilter t] with
  | some x => exact ⟨x, rfl⟩
  | none => exact absurd ⟨hs, ht⟩ (Find_pair_none.mp hf n hn)

theorem pass1Aux_all_unchanged (ot : MountTab) :
    ∀ (ns : List Filesystem) (md : MountTabDiff),
      (∀ n ∈ ns, ∃ o,
        ot.Find [SourceFilter n.GetSource, TargetFilter n.GetTarget] = some o ∧
          o.GetVFSOptions = n.GetVFSOptions ∧ o.GetFSOptions = n.GetFSOptions) →
      pass1Aux ot ns md = md := by
  intro ns
  induction ns with
  | nil => intro md _; rfl
  | cons n ns ih =>
    intro md h
    obtain ⟨o, hf, hv, hfs⟩ := h n (List.mem_cons_self n ns)
    show pass1Aux ot ns (pass1Step ot md n) = md
    rw [pass1Step_eq_some hf, if_neg (by push_neg; exact ⟨hv, hfs⟩)]
    exact ih md (fun m hm => h m (List.mem_cons_of_mem n hm))

theorem pass2Aux_all_found (nt : MountTab) :
    ∀ (os : List Filesystem) (md : MountTabDiff),
      (∀ o ∈ os, ∃ x,
        nt.Find [SourceFilter o.GetSource, TargetFilter o.GetTarget] = some x) →
      pass2Aux nt os md = md := by
  intro os
  induction os with
  | nil => intro md _; rfl
  | cons o os ih =>
    intro md h
    obtain ⟨x, hf⟩ := h o (List.mem_cons_self o os)
    show pass2Aux nt os (pass2Step nt md o) = md
    rw [pass2Step_eq_found hf]
    exact ih md (fun o' ho' => h o' (List.mem_cons_of_mem o ho'))

/-- Counterexample tables for C5: structurally identical tables that contain
two entries on the same (Source, Target) key but with different options. -/
def tabDupOld : MountTab :=
  MountTab.mk [Filesystem.mk 1 "/dev/x" "/mnt/x" "rw" "opts1",
    Filesystem.mk 2 "/dev/x" "/mnt/x" "rw" "opts2"]

/-- Second counterexample table, structurally identical to `tabDupOld` with
fresh IDs. -/
def tabDupNew : MountTab :=
  MountTab.mk [Filesystem.mk 3 "/dev/x" "/mnt/x" "rw" "opts1",
    Filesystem.mk 4 "/dev/x" "/mnt/x" "rw" "opts2"]

/-- C5 as stated fails: these two tables are structurally identical pairwise
yet `GenerateDiff` returns a spurious `Remount` entry, because the lookup by
(Source, Target) returns the first of the two duplicate-key old entries. -/
theorem generateDiff_structIdent_counterexample :
    List.Forall₂ structIdent tabDupOld.entries tabDupNew.entries ∧
    GenerateDiff (some tabDupOld) (some tabDupNew) ≠ [] := by
  constructor
  · exact List.Forall₂.cons ⟨rfl, rfl, rfl, rfl⟩
      (List.Forall₂.cons ⟨rfl, rfl, rfl, rfl⟩ List.Forall₂.nil)
  · decide

/-- C5 amended: for tables whose entries are structurally identical pairwise
(same Source, Target, VFSOptions, FSOptions; IDs and instances may differ),
provided each table contains at most one entry per (Source, Target) pair,
`GenerateDiff` returns an empty diff list. -/
theorem generateDiff_structIdent_empty (T T' : MountTab)
    (hpair : List.Forall₂ structIdent T.entries T'.entries)
    (hkeys : List.Pairwise keyDistinct T.entries)
    (_hkeysNew : List.Pairwise keyDistinct T'.entries) :
    GenerateDiff (some T) (some T') = [] := by
  rw [GenerateDiff_eq_passes]
  simp only [Option.getD_some]
  have h1 : pass1 T T' = [] := by
    apply pass1Aux_all_unchanged
    intro n hn
    obtain ⟨o, ho, hoid⟩ := forall2_exists_left hpair n hn
    exact ⟨o, Find_pair_eq_some_of_mem hkeys ho hoid.1 hoid.2.1,
      hoid.2.2.1, hoid.2.2.2⟩
  rw [h1]
  apply pass2Aux_all_found
  intro o ho
  obtain ⟨n, hn, hon⟩ := forall2_exists_right hpair o ho
  exact Find_pair_isSome_of_mem hn hon.1.symm hon.2.1.symm

theorem generateDiff_structIdent_empty_witness :
    GenerateDiff (some tabOldA)
      (some (MountTab.mk [Filesystem.mk 9 "/dev/sdb1" "/mnt/a" "rw,relatime" "rw"])) = [] :=
  generateDiff_structIdent_empty tabOldA
    (MountTab.mk [Filesystem.mk 9 "/dev/sdb1" "/mnt/a" "rw,relatime" "rw"])
    (List.Forall₂.cons ⟨rfl, rfl, rfl, rfl⟩ List.Forall₂.nil)
    (by simp [tabOldA]) (by simp)

/-! Order of the produced diff list. -/

/-- The `Umount` entries appended by pass 2 for the given old entries. -/
def umountEntriesOf (os : List Filesystem) : MountTabDiff :=
  os.map (fun o => MountTabDiffEntry.mk (some o) none MountAction.umount)

/-- `q` is `p` with some `Mount` entries reclassified in place to `Move`
(same length; every position holds either the original pass-1 entry or its
`Move` reclassification). -/
def reclassifiedFrom (p q : MountTabDiff) : Prop :=
  q.length = p.length ∧
  ∀ i, q.get? i = p.get? i ∨
    ∃ e o, p.get? i = some e ∧ e.action = MountAction.mount ∧
      q.get? i = some (moveReclassify o e)

theorem reclassifiedFrom_refl (p : MountTabDiff) : reclassifiedFrom p p :=
  ⟨rfl, fun _ => Or.inl rfl⟩

theorem getMountEntry_append_umounts (q : MountTabDiff) (os : List Filesystem)
    (s : String) (id : Int) :
    getMountEntry (q ++ umountEntriesOf os) s id = getMountEntry q s id := by
  apply firstIdx_append_right_none
  intro a ha
  simp [umountEntriesOf] at ha
  obtain ⟨o, -, rfl⟩ := ha
  exact mountEntryMatch_eq_false_of_action (by simp)

theorem reclassifiedFrom_modify {p q : MountTabDiff} {i : Nat} {o : Filesystem}
    {a : MountTabDiffEntry} (hq : reclassifiedFrom p q)
    (ha : q.get? i = some a) (hact : a.action = MountAction.mount) :
    reclassifiedFrom p (modifyAt q i (moveReclassify o)) := by
  refine ⟨(length_modifyAt q i _).trans hq.1, ?_⟩
  intro j
  by_cases hij : i = j
  · subst hij
    rw [get?_modifyAt_self, ha]
    rcases hq.2 i with h | ⟨e, o', he, heact, hqe⟩
    · rw [ha] at h
      exact Or.inr ⟨a, o, h.symm, hact, rfl⟩
    · rw [ha] at hqe
      have : a = moveReclassify o' e := Option.some.inj hqe
      rw [this] at hact
      exact absurd hact (by simp [moveReclassify])
  · rw [get?_modifyAt_ne q i j _ hij]
    exact hq.2 j

theorem pass2Aux_decomp (nt : MountTab) (p : MountTabDiff) :
    ∀ (os' : List Filesystem) (q : MountTabDiff) (os0 : List Filesystem),
      reclassifiedFrom p q →
      ∃ q2 os1, pass2Aux nt os' (q ++ umountEntriesOf os0) =
          q2 ++ umountEntriesOf (os0 ++ os1) ∧
        reclassifiedFrom p q2 ∧ os1.Sublist os' := by
  intro os'
  induction os' with
  | nil =>
    intro q os0 hq
    exact ⟨q, [], by simp [pass2Aux], hq, List.nil_sublist []⟩
  | cons o os' ih =>
    intro q os0 hq
    show ∃ q2 os1, pass2Aux nt os' (pass2Step nt (q ++ umountEntriesOf os0) o) = _ ∧ _ ∧ _
    cases hf : nt.Find [SourceFilter o.GetSource, TargetFilter o.GetTarget] with
    | some x =>
      rw [pass2Step_eq_found hf]
      obtain ⟨q2, os1, heq, hq2, hsub⟩ := ih q os0 hq
      exact ⟨q2, os1, heq, hq2, List.Sublist.cons o hsub⟩
    | none =>
      cases hg : getMountEntry (q ++ umountEntriesOf os0) o.GetSource o.GetID with
      | none =>
        rw [pass2Step_eq_umount hf hg]
        have hrw : (q ++ umountEntriesOf os0) ++
            [MountTabDiffEntry.mk (some o) none MountAction.umount] =
            q ++ umountEntriesOf (os0 ++ [o]) := by
          simp [umountEntriesOf]
        rw [hrw]
        obtain ⟨q2, os1, heq, hq2, hsub⟩ := ih q (os0 ++ [o]) hq
        refine ⟨q2, o :: os1, ?_, hq2, List.Sublist.cons₂ o hsub⟩
        rw [heq]
        congr 1
        simp
      | some i =>
        have hgq : getMountEntry q o.GetSource o.GetID = some i := by
          rw [getMountEntry_append_umounts] at hg
          exact hg
        have hilt : i < q.length := firstIdx_lt_length hgq
        rw [pass2Step_eq_move hf hg, modifyAt_append_left _ _ _ _ hilt]
        obtain ⟨a, ha, hm, -⟩ := firstIdx_spec hgq
        have hq' : reclassifiedFrom p (modifyAt q i (moveReclassify o)) :=
          reclassifiedFrom_modify hq ha (mountEntryMatch_true.mp hm).1
        obtain ⟨q2, os1, heq, hq2, hsub⟩ := ih (modifyAt q i (moveReclassify o)) os0 hq'
        exact ⟨q2, os1, heq, hq2, List.Sublist.cons o hsub⟩

theorem pass1_newFs_sublist (ot : MountTab) :
    ∀ ns : List Filesystem, ∃ ms : List Filesystem, ms.Sublist ns ∧
      (pass1Aux ot ns []).map (fun e => e.newFs) = ms.map some := by
  intro ns
  induction ns with
  | nil => exact ⟨[], List.nil_sublist [], rfl⟩
  | cons n ns ih =>
    obtain ⟨ms, hsub, hmap⟩ := ih
    rw [show pass1Aux ot (n :: ns) [] = pass1Aux ot ns (pass1Step ot [] n) from rfl,
      pass1Aux_acc]
    cases hf : ot.Find [SourceFilter n.GetSource, TargetFilter n.GetTarget] with
    | none =>
      refine ⟨n :: ms, List.Sublist.cons₂ n hsub, ?_⟩
      rw [pass1Step_eq_none hf]
      simpa using hmap
    | some o =>
      by_cases hopt : o.GetVFSOptions ≠ n.GetVFSOptions ∨ o.GetFSOptions ≠ n.GetFSOptions
      · refine ⟨n :: ms, List.Sublist.cons₂ n hsub, ?_⟩
        rw [pass1Step_eq_some hf, if_pos hopt]
        simpa using hmap
      · refine ⟨ms, List.Sublist.cons n hsub, ?_⟩
        rw [pass1Step_eq_some hf, if_neg hopt]
        simpa using hmap

/-- C8: the diff list returned by `GenerateDiff` is the pass-1 list (in
new-table order, each entry either intact or reclassified in place from
`Mount` to `Move`, keeping its position) followed by the `Umount` entries of
pass 2 taken from the old table in old-table order; no sorting by any entry
key takes place. -/
theorem generateDiff_order (ot nt : MountTab) :
    ∃ (q : MountTabDiff) (os ns : List Filesystem),
      GenerateDiff (some ot) (some nt) = q ++ umountEntriesOf os ∧
      reclassifiedFrom (pass1 ot nt) q ∧
      os.Sublist ot.entries ∧
      ns.Sublist nt.entries ∧
      (pass1 ot nt).map (fun e => e.newFs) = ns.map some := by
  obtain ⟨q2, os1, heq, hq2, hsub⟩ :=
    pass2Aux_decomp nt (pass1 ot nt) ot.entries (pass1 ot nt) []
      (reclassifiedFrom_refl (pass1 ot nt))
  obtain ⟨ms, hms, hmap⟩ := pass1_newFs_sublist ot nt.entries
  refine ⟨q2, os1, ms, ?_, hq2, hsub, hms, hmap⟩
  rw [GenerateDiff_eq_passes]
  simp only [Option.getD_some]
  simpa [umountEntriesOf] using heq

/-! Shape of Move entries. -/

/-- Every present `newFs` of the entry comes from the new table. -/
def newFsInTab (nt : MountTab) (e : MountTabDiffEntry) : Prop :=
  ∀ m, e.newFs = some m → m ∈ nt.entries

/-- A `Move` entry carries both sides, with equal ID, equal Source and
different Target. -/
def moveOK (e : MountTabDiffEntry) : Prop :=
  e.action = MountAction.move →
    ∃ o n, e.oldFs = some o ∧ e.newFs = some n ∧
      o.GetID = n.GetID ∧ o.GetSource = n.GetSource ∧ o.GetTarget ≠ n.GetTarget

theorem pass2Step_moveOK {nt : MountTab} {md : MountTabDiff} {o : Filesystem}
    (h : ∀ e ∈ md, newFsInTab nt e ∧ moveOK e) :
    ∀ e ∈ pass2Step nt md o, newFsInTab nt e ∧ moveOK e := by
  cases hf : nt.Find [SourceFilter o.GetSource, TargetFilter o.GetTarget] with
  | some x => rw [pass2Step_eq_found hf]; exact h
  | none =>
    cases hg : getMountEntry md o.GetSource o.GetID with
    | none =>
      rw [pass2Step_eq_umount hf hg]
      intro e he
      rcases List.mem_append.mp he with h' | h'
      · exact h e h'
      · simp at h'
        subst h'
        exact ⟨fun m hm => by simp at hm, fun hact => by simp at hact⟩
    | some i =>
      rw [pass2Step_eq_move hf hg]
      intro e he
      rcases mem_modifyAt he with h' | ⟨a, ha, rfl⟩
      · exact h e h'
      · obtain ⟨a', ha', hm, -⟩ := firstIdx_spec hg
        rw [ha] at ha'
        cases ha'
        obtain ⟨-, m, hnf, hmid, hmsrc⟩ := mountEntryMatch_true.mp hm
        have hmem : m ∈ nt.entries :=
          (h a (List.mem_iff_get?.mpr ⟨i, ha⟩)).1 m hnf
        have htgt : o.GetTarget ≠ m.GetTarget := by
          intro hcontra
          exact Find_pair_none.mp hf m hmem ⟨hmsrc, hcontra.symm⟩
        constructor
        · intro m' hm'
          have : a.newFs = some m' := hm'
          rw [hnf] at this
          cases Option.some.inj this
          exact hmem
        · intro _
          exact ⟨o, m, rfl, hnf, hmid.symm, hmsrc.symm, htgt⟩

theorem pass2Aux_moveOK {nt : MountTab} :
    ∀ (os : List Filesystem) (md : MountTabDiff),
      (∀ e ∈ md, newFsInTab nt e ∧ moveOK e) →
      ∀ e ∈ pass2Aux nt os md, newFsInTab nt e ∧ moveOK e := by
  intro os
  induction os with
  | nil => intro md h e he; exact h e he
  | cons o os ih =>
    intro md h e he
    exact ih (pass2Step nt md o) (pass2Step_moveOK h) e he

/-- C10: every `Move` entry produced by `GenerateDiff` has both sides
present, with equal `ID` and equal `Source`; and (under the claim's
assumption that each table holds at most one entry per (Source, Target)
pair — the proof does not even need it) the `Target` fields differ. -/
theorem generateDiff_move_shape (ot nt : MountTab)
    (_hkold : List.Pairwise keyDistinct ot.entries)
    (_hknew : List.Pairwise keyDistinct nt.entries) :
    ∀ e ∈ GenerateDiff (some ot) (some nt), e.action = MountAction.move →
      ∃ o n, e.oldFs = some o ∧ e.newFs = some n ∧
        o.GetID = n.GetID ∧ o.GetSource = n.GetSource ∧
        o.GetTarget ≠ n.GetTarget := by
  intro e he hact
  rw [GenerateDiff_eq_passes] at he
  simp only [Option.getD_some] at he
  refine (pass2Aux_moveOK ot.entries (pass1 ot nt) ?_ e he).2 hact
  intro e' he'
  have he'' : e' ∈ pass1Aux ot nt.entries [] := he'
  rcases pass1Aux_shape ot nt.entries e' he'' with ⟨n, hn, rfl⟩ | ⟨o, n, -, hn, rfl⟩
  · exact ⟨fun m hm => by cases Option.some.inj hm; exact hn,
      fun hc => by simp at hc⟩
  · exact ⟨fun m hm => by cases Option.some.inj hm; exact hn,
      fun hc => by simp at hc⟩

theorem generateDiff_move_shape_witness :
    ∃ o n,
      (MountTabDiffEntry.mk (some fsOldA) (some fsNewB) MountAction.move).oldFs = some o ∧
      (MountTabDiffEntry.mk (some fsOldA) (some fsNewB) MountAction.move).newFs = some n ∧
      o.GetID = n.GetID ∧ o.GetSource = n.GetSource ∧ o.GetTarget ≠ n.GetTarget :=
  generateDiff_move_shape tabOldA tabNewB (by simp [tabOldA]) (by simp [tabNewB])
    (MountTabDiffEntry.mk (some fsOldA) (some fsNewB) MountAction.move)
    (by decide) rfl

/-! The ListSources summary accessor. -/

theorem diffSource_of_presence {e : MountTabDiffEntry} (h : presenceOK e) :
    ∃ s, diffSource e = some s := by
  obtain ⟨o, n, a⟩ := e
  cases a with
  | mount =>
    obtain ⟨-, hn⟩ := h
    obtain ⟨m, hm⟩ := Option.isSome_iff_exists.mp hn
    exact ⟨m.GetSource, by simp [diffSource]; exact ⟨m, hm, rfl⟩⟩
  | umount =>
    obtain ⟨ho, -⟩ := h
    obtain ⟨m, hm⟩ := Option.isSome_iff_exists.mp ho
    exact ⟨m.GetSource, by simp [diffSource]; exact ⟨m, hm, rfl⟩⟩
  | move =>
    obtain ⟨-, hn⟩ := h
    obtain ⟨m, hm⟩ := Option.isSome_iff_exists.mp hn
    exact ⟨m.GetSource, by simp [diffSource]; exact ⟨m, hm, rfl⟩⟩
  | remount =>
    obtain ⟨-, hn⟩ := h
    obtain ⟨m, hm⟩ := Option.isSome_iff_exists.mp hn
    exact ⟨m.GetSource, by simp [diffSource]; exact ⟨m, hm, rfl⟩⟩

theorem diffSources_total :
    ∀ (md : MountTabDiff), (∀ e ∈ md, ∃ s, diffSource e = some s) →
      ∃ srcs, diffSources md = some srcs ∧
        ∀ s, s ∈ srcs ↔ ∃ e ∈ md, diffSource e = some s := by
  intro md
  induction md with
  | nil => intro _; exact ⟨[], rfl, by simp⟩
  | cons e es ih =>
    intro h
    obtain ⟨s0, hs0⟩ := h e (List.mem_cons_self e es)
    obtain ⟨srcs, hsrcs, hiff⟩ := ih (fun e' he' => h e' (List.mem_cons_of_mem e he'))
    refine ⟨s0 :: srcs, by simp [diffSources, hs0, hsrcs], ?_⟩
    intro s
    constructor
    · intro hs
      rcases List.mem_cons.mp hs with rfl | hs'
      · exact ⟨e, List.mem_cons_self e es, hs0⟩
      · obtain ⟨e', he', hse'⟩ := (hiff s).mp hs'
        exact ⟨e', List.mem_cons_of_mem e he', hse'⟩
    · rintro ⟨e', he', hse'⟩
      rcases List.mem_cons.mp he' with rfl | he''
      · rw [hs0] at hse'
        cases Option.some.inj hse'
        exact List.mem_cons_self _ _
      · exact List.mem_cons_of_mem _ ((hiff s).mpr ⟨e', he'', hse'⟩)

theorem mem_insertUnique (acc : List String) (a s : String) :
    s ∈ insertUnique acc a ↔ s ∈ acc ∨ s = a := by
  unfold insertUnique
  by_cases h : a ∈ acc
  · rw [if_pos h]
    constructor
    · exact Or.inl
    · rintro (hs | rfl)
      · exact hs
      · exact h
  · rw [if_neg h]
    simp

theorem nodup_insertUnique (acc : List String) (a : String) (h : acc.Nodup) :
    (insertUnique acc a).Nodup := by
  unfold insertUnique
  by_cases ha : a ∈ acc
  · rw [if_pos ha]; exact h
  · rw [if_neg ha]
    simp [List.nodup_append, h, ha]

theorem mem_foldl_insertUnique :
    ∀ (l acc : List String) (s : String),
      s ∈ l.foldl insertUnique acc ↔ s ∈ acc ∨ s ∈ l := by
  intro l
  induction l with
  | nil => intro acc s; simp
  | cons a l ih =>
    intro acc s
    show s ∈ l.foldl insertUnique (insertUnique acc a) ↔ _
    rw [ih, mem_insertUnique]
    constructor
    · rintro ((hs | rfl) | hs)
      · exact Or.inl hs
      · exact Or.inr (List.mem_cons_self _ _)
      · exact Or.inr (List.mem_cons_of_mem _ hs)
    · rintro (hs | hs)
      · exact Or.inl (Or.inl hs)
      · rcases List.mem_cons.mp hs with rfl | hs'
        · exact Or.inl (Or.inr rfl)
        · exact Or.inr hs'

theorem nodup_foldl_insertUnique :
    ∀ (l acc : List String), acc.Nodup → (l.foldl insertUnique acc).Nodup := by
  intro l
  induction l with
  | nil => intro acc h; exact h
  | cons a l ih => intro acc h; exact ih (insertUnique acc a) (nodup_insertUnique acc a h)

/-- C6: for every diff list produced by `GenerateDiff`, `ListSources`
returns the set of per-entry sources (`oldFs.Source` for `Umount` entries,
`newFs.Source` otherwise) with duplicates removed, as a sequence sorted in
ascending lexicographic order. -/
theorem listSources_sorted_dedup (oldArg newArg : Option MountTab) :
    ∃ l, ListSources (GenerateDiff oldArg newArg) = some l ∧
      List.Sorted (fun a b : String => a ≤ b) l ∧ l.Nodup ∧
      ∀ s, s ∈ l ↔ ∃ e ∈ GenerateDiff oldArg newArg, diffSource e = some s := by
  obtain ⟨srcs, hsrcs, hiff⟩ :=
    diffSources_total (GenerateDiff oldArg newArg)
      (fun e he => diffSource_of_presence (diff_presence_all oldArg newArg e he))
  set uniq := srcs.foldl insertUnique [] with huniq
  refine ⟨List.insertionSort (fun a b => a ≤ b) uniq, ?_, ?_, ?_, ?_⟩
  · unfold ListSources
    rw [hsrcs]
  · exact List.sorted_insertionSort _ _
  · exact ((List.perm_insertionSort _ _).nodup_iff).mpr
      (nodup_foldl_insertUnique srcs [] List.nodup_nil)
  · intro s
    rw [(List.perm_insertionSort (fun a b => a ≤ b) uniq).mem_iff, huniq,
      mem_foldl_insertUnique]
    simp [hiff s]

/-! Explicit-store model of the accessor copies.

In the source, `oldFs`/`newFs` are shared pointers; `GetOldFs`/`GetNewFs`
dereference them, copy the pointed-to value into a fresh cell and return a
pointer to the copy (`fs := *mde.oldFs; return &fs`).  The store is a list
of cells, a pointer is an index, and allocation appends a cell. -/

/-- A store of `Filesystem` cells; a pointer is an index into it. -/
structure FsStore where
  cells : List Filesystem

/-- Dereference a pointer. -/
def readFs (st : FsStore) (p : Nat) : Option Filesystem := st.cells.get? p

/-- Mutate the cell a pointer refers to. -/
def writeFs (st : FsStore) (p : Nat) (v : Filesystem) : FsStore :=
  FsStore.mk (st.cells.set p v)

/-- Allocate a fresh cell holding `v` and return a pointer to it. -/
def allocFs (st : FsStore) (v : Filesystem) : FsStore × Nat :=
  (FsStore.mk (st.cells ++ [v]), st.cells.length)

/-- A diff entry as stored by the engine: its two sides are pointers. -/
structure MountTabDiffEntryPtr where
  oldFs : Option Nat
  newFs : Option Nat
  action : MountAction

/-- `GetOldFs` with the explicit store: nil propagates, otherwise the
pointed-to value is copied into a fresh cell and a pointer to the copy is
returned (the outer `none` models a dangling pointer, which cannot arise
for engine-produced entries). -/
def GetOldFs (st : FsStore) (mde : MountTabDiffEntryPtr) :
    Option (FsStore × Option Nat) :=
  match mde.oldFs with
  | none => some (st, none)
  | some p =>
      match readFs st p with
      | none => none
      | some fs => some ((allocFs st fs).1, some (allocFs st fs).2)

/-- `GetNewFs` with the explicit store, like `GetOldFs`. -/
def GetNewFs (st : FsStore) (mde : MountTabDiffEntryPtr) :
    Option (FsStore × Option Nat) :=
  match mde.newFs with
  | none => some (st, none)
  | some p =>
      match readFs st p with
      | none => none
      | some fs => some ((allocFs st fs).1, some (allocFs st fs).2)

theorem readFs_alloc_old {st : FsStore} {p : Nat} {w : Filesystem} (v : Filesystem)
    (h : readFs st p = some w) : readFs (allocFs st v).1 p = some w := by
  unfold readFs allocFs at *
  have hlt : p < st.cells.length := (List.get?_eq_some.mp h).1
  rw [List.get?_append hlt]
  exact h

theorem readFs_alloc_new (st : FsStore) (v : Filesystem) :
    readFs (allocFs st v).1 (allocFs st v).2 = some v := by
  unfold readFs allocFs
  simp

theorem readFs_write_ne {st : FsStore} {p q : Nat} (u : Filesystem) (hne : q ≠ p) :
    readFs (writeFs st q u) p = readFs st p := by
  unfold readFs writeFs
  exact List.get?_set_ne u st.cells hne

/-- C9: `GetOldFs` and `GetNewFs` return an independent copy of the
referenced `Filesystem` entry (or an explicit absent value when the side is
absent): the returned pointer is to a fresh cell, so writing any value
through it leaves the entry's own cells unchanged, and a later `GetOldFs` or
`GetNewFs` call on the same diff entry still yields the original values. -/
theorem GetOldFs_eq_some {st : FsStore} {mde : MountTabDiffEntryPtr} {p : Nat}
    {v : Filesystem} (hop : mde.oldFs = some p) (hv : readFs st p = some v) :
    GetOldFs st mde = some ((allocFs st v).1, some (allocFs st v).2) := by
  unfold GetOldFs
  rw [hop]
  show (match readFs st p with
    | none => none
    | some fs => some ((allocFs st fs).1, some (allocFs st fs).2)) = _
  rw [hv]

theorem GetNewFs_eq_some {st : FsStore} {mde : MountTabDiffEntryPtr} {q : Nat}
    {w : Filesystem} (hnp : mde.newFs = some q) (hw : readFs st q = some w) :
    GetNewFs st mde = some ((allocFs st w).1, some (allocFs st w).2) := by
  unfold GetNewFs
  rw [hnp]
  show (match readFs st q with
    | none => none
    | some fs => some ((allocFs st fs).1, some (allocFs st fs).2)) = _
  rw [hw]

theorem getFs_returns_copies (st : FsStore) (mde : MountTabDiffEntryPtr)
    (p q : Nat) (v w : Filesystem)
    (hop : mde.oldFs = some p) (hv : readFs st p = some v)
    (hnp : mde.newFs = some q) (hw : readFs st q = some w) :
    GetOldFs st mde = some ((allocFs st v).1, some (allocFs st v).2) ∧
    GetNewFs st mde = some ((allocFs st w).1, some (allocFs st w).2) ∧
    (∀ u, readFs (writeFs (allocFs st v).1 (allocFs st v).2 u) p = some v) ∧
    (∀ u, readFs (writeFs (allocFs st v).1 (allocFs st v).2 u) q = some w) ∧
    (∀ u, ∃ st2 r2,
      GetOldFs (writeFs (allocFs st v).1 (allocFs st v).2 u) mde =
        some (st2, some r2) ∧ readFs st2 r2 = some v) ∧
    (∀ u, ∃ st3 r3,
      GetNewFs (writeFs (allocFs st v).1 (allocFs st v).2 u) mde =
        some (st3, some r3) ∧ readFs st3 r3 = some w) ∧
    (∀ (st' : FsStore) (m' : MountTabDiffEntryPtr), m'.oldFs = none →
      GetOldFs st' m' = some (st', none)) ∧
    (∀ (st' : FsStore) (m' : MountTabDiffEntryPtr), m'.newFs = none →
      GetNewFs st' m' = some (st', none)) := by
  have hplt : p < st.cells.length := (List.get?_eq_some.mp hv).1
  have hqlt : q < st.cells.length := (List.get?_eq_some.mp hw).1
  have hnep : (allocFs st v).2 ≠ p := Nat.ne_of_gt hplt
  have hneq : (allocFs st v).2 ≠ q := Nat.ne_of_gt hqlt
  have hrp : ∀ u, readFs (writeFs (allocFs st v).1 (allocFs st v).2 u) p = some v := by
    intro u
    rw [readFs_write_ne u hnep]
    exact readFs_alloc_old v hv
  have hrq : ∀ u, readFs (writeFs (allocFs st v).1 (allocFs st v).2 u) q = some w := by
    intro u
    rw [readFs_write_ne u hneq]
    exact readFs_alloc_old v hw
  refine ⟨GetOldFs_eq_some hop hv, GetNewFs_eq_some hnp hw, hrp, hrq, ?_, ?_, ?_, ?_⟩
  · intro u
    exact ⟨_, _, GetOldFs_eq_some hop (hrp u), readFs_alloc_new _ v⟩
  · intro u
    exact ⟨_, _, GetNewFs_eq_some hnp (hrq u), readFs_alloc_new _ w⟩
  · intro st' m' h
    unfold GetOldFs
    rw [h]
  · intro st' m' h
    unfold GetNewFs
    rw [h]

theorem getFs_returns_copies_witness :
    GetOldFs (FsStore.mk [fsOldA, fsNewB])
      (MountTabDiffEntryPtr.mk (some 0) (some 1) MountAction.move) =
      some (FsStore.mk [fsOldA, fsNewB, fsOldA], some 2) ∧
    readFs
      (writeFs (FsStore.mk [fsOldA, fsNewB, fsOldA]) 2 fsNewB) 0 = some fsOldA :=
  ⟨(getFs_returns_copies (FsStore.mk [fsOldA, fsNewB])
      (MountTabDiffEntryPtr.mk (some 0) (some 1) MountAction.move)
      0 1 fsOldA fsNewB rfl rfl rfl rfl).1,
    (getFs_returns_copies (FsStore.mk [fsOldA, fsNewB])
      (MountTabDiffEntryPtr.mk (some 0) (some 1) MountAction.move)
      0 1 fsOldA fsNewB rfl rfl rfl rfl).2.2.1 fsNewB⟩

/-! Helper lemmas for move detection. -/

theorem pass1Step_newFs (ot : MountTab) (m : Filesystem) :
    ∀ e ∈ pass1Step ot [] m, e.newFs = some m := by
  intro e he
  cases hf : ot.Find [SourceFilter m.GetSource, TargetFilter m.GetTarget] with
  | none =>
    rw [pass1Step_eq_none hf] at he
    simp at he
    subst he
    rfl
  | some o =>
    rw [pass1Step_eq_some hf] at he
    by_cases hopt : o.GetVFSOptions ≠ m.GetVFSOptions ∨ o.GetFSOptions ≠ m.GetFSOptions
    · rw [if_pos hopt] at he
      simp at he
      subst he
      rfl
    · rw [if_neg hopt] at he
      simp at he

theorem firstIdx_eq_of {α : Type} {p : α → Bool} :
    ∀ {l : List α} {k : Nat} {a : α}, l.get? k = some a → p a = true →
      (∀ j b, j < k → l.get? j = some b → p b = false) →
      firstIdx p l = some k := by
  intro l
  induction l with
  | nil => intro k a hk; simp at hk
  | cons c cs ih =>
    intro k a hk hpa hothers
    cases k with
    | zero =>
      simp at hk
      subst hk
      simp [firstIdx, hpa]
    | succ k' =>
      have hpc : p c = false := hothers 0 c (Nat.succ_pos k') rfl
      rw [firstIdx, hpc]
      simp only [Bool.false_eq_true, if_false]
      rw [ih (by simpa using hk) hpa
        (fun j b hj hb => hothers (j + 1) b (Nat.succ_lt_succ hj) (by simpa using hb))]
      rfl

theorem pass2Aux_get_preserved (nt : MountTab) {E : MountTabDiffEntry} {k : Nat} :
    ∀ (os : List Filesystem) (md : MountTabDiff),
      md.get? k = some E →
      (∀ o' ∈ os, mountEntryMatch o'.GetSource o'.GetID E = false) →
      (pass2Aux nt os md).get? k = some E := by
  intro os
  induction os with
  | nil => intro md hk _; exact hk
  | cons o' os ih =>
    intro md hk hmatch
    have hstep : (pass2Step nt md o').get? k = some E := by
      cases hf : nt.Find [SourceFilter o'.GetSource, TargetFilter o'.GetTarget] with
      | some x => rw [pass2Step_eq_found hf]; exact hk
      | none =>
        cases hg : getMountEntry md o'.GetSource o'.GetID with
        | none =>
          rw [pass2Step_eq_umount hf hg]
          have hklt : k < md.length := (List.get?_eq_some.mp hk).1
          rw [List.get?_append hklt]
          exact hk
        | some i =>
          rw [pass2Step_eq_move hf hg]
          have hik : i ≠ k := by
            intro hik
            subst hik
            obtain ⟨a, ha, hm, -⟩ := firstIdx_spec hg
            rw [hk] at ha
            cases ha
            exact absurd hm (by
              rw [hmatch o' (List.mem_cons_self o' os)]
              simp)
          rw [get?_modifyAt_ne md i k _ hik]
          exact hk
    exact ih (pass2Step nt md o') hstep
      (fun o'' ho'' => hmatch o'' (List.mem_cons_of_mem o' ho''))

theorem nodup_map_split {α β : Type} {f : α → β} {l₁ l₂ : List α} {o : α}
    (h : ((l₁ ++ o :: l₂).map f).Nodup) :
    (∀ a ∈ l₁, f a ≠ f o) ∧ (∀ a ∈ l₂, f a ≠ f o) := by
  rw [List.map_append, List.map_cons, List.nodup_append] at h
  obtain ⟨-, h2, hdisj⟩ := h
  constructor
  · intro a ha hfa
    exact hdisj (List.mem_map_of_mem f ha) (by rw [hfa]; exact List.mem_cons_self _ _)
  · intro a ha hfa
    rw [List.nodup_cons] at h2
    exact h2.1 (hfa ▸ List.mem_map_of_mem f ha)

theorem nodup_map_eq {α β : Type} {f : α → β} {l : List α} {a b : α}
    (h : (l.map f).Nodup) (ha : a ∈ l) (hb : b ∈ l) (hf : f a = f b) : a = b := by
  induction l with
  | nil => simp at ha
  | cons c cs ih =>
    rw [List.map_cons, List.nodup_cons] at h
    rcases List.mem_cons.mp ha with rfl | ha'
    · rcases List.mem_cons.mp hb with rfl | hb'
      · rfl
      · exact absurd (hf ▸ List.mem_map_of_mem f hb') h.1
    · rcases List.mem_cons.mp hb with rfl | hb'
      · exact absurd (hf ▸ List.mem_map_of_mem f ha') h.1
      · exact ih h.2 ha' hb'

theorem pass1Aux_unique_mount (ot : MountTab) {n : Filesystem}
    (hfind : ot.Find [SourceFilter n.GetSource, TargetFilter n.GetTarget] = none) :
    ∀ ns : List Filesystem, n ∈ ns → (ns.map Filesystem.GetID).Nodup →
      ∃ k, (pass1Aux ot ns []).get? k =
          some (MountTabDiffEntry.mk none (some n) MountAction.mount) ∧
        ∀ j e, (pass1Aux ot ns []).get? j = some e → e.newFs = some n → j = k := by
  intro ns
  induction ns with
  | nil => intro hn; simp at hn
  | cons m ms ih =>
    intro hn hnodup
    rw [List.map_cons, List.nodup_cons] at hnodup
    have hdecomp : pass1Aux ot (m :: ms) [] = pass1Step ot [] m ++ pass1Aux ot ms [] := by
      rw [show pass1Aux ot (m :: ms) [] = pass1Aux ot ms (pass1Step ot [] m) from rfl,
        pass1Aux_acc]
    by_cases hmn : m = n
    · subst hmn
      have hstep : pass1Step ot [] m =
          [MountTabDiffEntry.mk none (some m) MountAction.mount] :=
        pass1Step_eq_none hfind
      have hnotmem : m ∉ ms := fun hmem =>
        hnodup.1 (List.mem_map_of_mem Filesystem.GetID hmem)
      refine ⟨0, ?_, ?_⟩
      · rw [hdecomp, hstep]
        rfl
      · intro j e hj hnf
        cases j with
        | zero => rfl
        | succ j' =>
          exfalso
          rw [hdecomp, hstep] at hj
          have hj' : (pass1Aux ot ms []).get? j' = some e := by simpa using hj
          have hemem : e ∈ pass1Aux ot ms [] := List.mem_iff_get?.mpr ⟨j', hj'⟩
          rcases pass1Aux_shape ot ms e hemem with ⟨n', hn', rfl⟩ | ⟨o', n', -, hn', rfl⟩
          · cases Option.some.inj hnf
            exact hnotmem hn'
          · cases Option.some.inj hnf
            exact hnotmem hn'
    · have hn' : n ∈ ms := by
        rcases List.mem_cons.mp hn with h | h
        · exact absurd h.symm hmn
        · exact h
      obtain ⟨k', hk', huniq'⟩ := ih hn' hnodup.2
      have hlen : ∀ j e, j < (pass1Step ot [] m).length →
          (pass1Step ot [] m).get? j = some e → e.newFs ≠ some n := by
        intro j e hj hje hnf
        have hemem : e ∈ pass1Step ot [] m := List.mem_iff_get?.mpr ⟨j, hje⟩
        have := pass1Step_newFs ot m e hemem
        rw [this] at hnf
        exact hmn (Option.some.inj hnf)
      refine ⟨(pass1Step ot [] m).length + k', ?_, ?_⟩
      · rw [hdecomp, List.get?_append_right (Nat.le_add_right _ _)]
        simpa using hk'
      · intro j e hj hnf
        rw [hdecomp] at hj
        by_cases hjlt : j < (pass1Step ot [] m).length
        · exact absurd hnf (hlen j e hjlt (by rw [List.get?_append hjlt] at hj; exact hj))
        · push_neg at hjlt
          have hj' : (pass1Aux ot ms []).get? (j - (pass1Step ot [] m).length) = some e := by
            rw [List.get?_append_right hjlt] at hj
            exact hj
          have := huniq' (j - (pass1Step ot [] m).length) e hj' hnf
          omega

theorem pass1_def (ot nt : MountTab) : pass1 ot nt = pass1Aux ot nt.entries [] := rfl

theorem mem_umountEntriesOf {os : List Filesystem} {e : MountTabDiffEntry}
    (h : e ∈ umountEntriesOf os) :
    ∃ o' ∈ os, e = MountTabDiffEntry.mk (some o') none MountAction.umount := by
  simp [umountEntriesOf] at h
  obtain ⟨o', ho', he⟩ := h
  exact ⟨o', ho', he.symm⟩

/-- C2 fails as stated: when the reported Source changes together with the
Target, the ID-based tie-break (which also requires an unchanged Source)
does not fire, and the engine emits an unrelated Mount plus Umount pair
instead of a single Move. -/
theorem generateDiff_source_change_counterexample :
    GenerateDiff (some (MountTab.mk [Filesystem.mk 5 "/dev/a" "/m1" "rw" "rw"]))
        (some (MountTab.mk [Filesystem.mk 5 "/dev/b" "/m2" "rw" "rw"])) =
      [MountTabDiffEntry.mk none (some (Filesystem.mk 5 "/dev/b" "/m2" "rw" "rw"))
          MountAction.mount,
        MountTabDiffEntry.mk (some (Filesystem.mk 5 "/dev/a" "/m1" "rw" "rw")) none
          MountAction.umount] ∧
    ∀ e ∈ GenerateDiff (some (MountTab.mk [Filesystem.mk 5 "/dev/a" "/m1" "rw" "rw"]))
        (some (MountTab.mk [Filesystem.mk 5 "/dev/b" "/m2" "rw" "rw"])),
      e.action ≠ MountAction.move := by
  refine ⟨by decide, by decide⟩

/-- C2 amended: for every pair of tables in which one mount instance keeps
its kernel ID and its Source but appears in the new table with a different
Target, provided IDs are unique within each table, the vacated
(Source, Target) pair no longer occurs in the new table and the new
(Source, Target) pair did not occur in the old table, `GenerateDiff`
classifies the change as a single `Move` entry for that instance — not as
an unrelated Mount plus Umount pair. -/
theorem generateDiff_move_detection (ot nt : MountTab) (o n : Filesystem)
    (ho : o ∈ ot.entries) (hn : n ∈ nt.entries)
    (hidso : (ot.entries.map Filesystem.GetID).Nodup)
    (hidsn : (nt.entries.map Filesystem.GetID).Nodup)
    (hid : n.GetID = o.GetID) (hsrc : n.GetSource = o.GetSource)
    (holdkey : ∀ a ∈ ot.entries, ¬(a.GetSource = n.GetSource ∧ a.GetTarget = n.GetTarget))
    (hnewkey : ∀ b ∈ nt.entries, ¬(b.GetSource = o.GetSource ∧ b.GetTarget = o.GetTarget)) :
    MountTabDiffEntry.mk (some o) (some n) MountAction.move ∈
        GenerateDiff (some ot) (some nt) ∧
    (∀ e ∈ GenerateDiff (some ot) (some nt), e.newFs = some n →
      e = MountTabDiffEntry.mk (some o) (some n) MountAction.move) ∧
    (∀ e ∈ GenerateDiff (some ot) (some nt), e.action = MountAction.umount →
      e.oldFs ≠ some o) := by
  have hfindn : ot.Find [SourceFilter n.GetSource, TargetFilter n.GetTarget] = none :=
    Find_pair_none.mpr holdkey
  have hfindo : nt.Find [SourceFilter o.GetSource, TargetFilter o.GetTarget] = none :=
    Find_pair_none.mpr hnewkey
  obtain ⟨k, hk, huniq⟩ := pass1Aux_unique_mount ot hfindn nt.entries hn hidsn
  rw [← pass1_def] at hk
  have huniq' : ∀ j e, (pass1 ot nt).get? j = some e → e.newFs = some n → j = k := by
    rw [pass1_def]; exact huniq
  obtain ⟨l₁, l₂, hsplit⟩ := List.append_of_mem ho
  have hids := nodup_map_split (f := Filesystem.GetID) (hsplit ▸ hidso)
  have hklt : k < (pass1 ot nt).length := (List.get?_eq_some.mp hk).1
  -- phase 1: entries of `l₁` never match the pending Mount entry for `n`
  have hm1 : ∀ o' ∈ l₁, mountEntryMatch o'.GetSource o'.GetID
      (MountTabDiffEntry.mk none (some n) MountAction.mount) = false := by
    intro o' ho'
    cases hmm : mountEntryMatch o'.GetSource o'.GetID
        (MountTabDiffEntry.mk none (some n) MountAction.mount) with
    | false => rfl
    | true =>
      exfalso
      obtain ⟨-, m, hnf, hmid, -⟩ := mountEntryMatch_true.mp hmm
      cases Option.some.inj hnf
      exact hids.1 o' ho' (by rw [← hmid, hid])
  obtain ⟨q1, os1, heq1, hq1, hsub1⟩ :=
    pass2Aux_decomp nt (pass1 ot nt) l₁ (pass1 ot nt) []
      (reclassifiedFrom_refl (pass1 ot nt))
  have heq1' : pass2Aux nt l₁ (pass1 ot nt) = q1 ++ umountEntriesOf os1 := by
    simpa [umountEntriesOf] using heq1
  have hpres1 : (pass2Aux nt l₁ (pass1 ot nt)).get? k =
      some (MountTabDiffEntry.mk none (some n) MountAction.mount) :=
    pass2Aux_get_preserved nt l₁ (pass1 ot nt) hk hm1
  have hkq1lt : k < q1.length := by rw [hq1.1]; exact hklt
  have hkq1 : q1.get? k = some (MountTabDiffEntry.mk none (some n) MountAction.mount) := by
    rw [heq1', List.get?_append hkq1lt] at hpres1
    exact hpres1
  -- the pending Mount entry for `n` is the first match for `o`
  have hgq1first : firstIdx (mountEntryMatch o.GetSource o.GetID) q1 = some k := by
    apply firstIdx_eq_of hkq1
    · simp [mountEntryMatch, hid, hsrc]
    · intro j b hj hb
      cases hmb : mountEntryMatch o.GetSource o.GetID b with
      | false => rfl
      | true =>
        exfalso
        obtain ⟨hact, m, hnfb, hmid, hmsrc⟩ := mountEntryMatch_true.mp hmb
        rcases hq1.2 j with hcase | ⟨e0, o', he0, -, hre⟩
        · rw [hb] at hcase
          have hpj : (pass1 ot nt).get? j = some b := hcase.symm
          have hbmem : b ∈ pass1Aux ot nt.entries [] := by
            rw [← pass1_def]
            exact List.mem_iff_get?.mpr ⟨j, hpj⟩
          rcases pass1Aux_shape ot nt.entries b hbmem with ⟨n', hn', rfl⟩ |
            ⟨o'', n', -, -, rfl⟩
          · cases Option.some.inj hnfb
            have hmn : m = n := nodup_map_eq hidsn hn' hn (by rw [hmid, ← hid])
            have hjk := huniq' j _ hpj (by rw [hmn])
            omega
          · simp at hact
        · rw [hb] at hre
          cases Option.some.inj hre
          simp [moveReclassify] at hact
  have hgetm : getMountEntry (pass2Aux nt l₁ (pass1 ot nt)) o.GetSource o.GetID =
      some k := by
    rw [heq1', getMountEntry_append_umounts]
    exact hgq1first
  have hostep : pass2Step nt (pass2Aux nt l₁ (pass1 ot nt)) o =
      modifyAt q1 k (moveReclassify o) ++ umountEntriesOf os1 := by
    rw [pass2Step_eq_move hfindo hgetm, heq1', modifyAt_append_left _ _ _ _ hkq1lt]
  have hq2k : (modifyAt q1 k (moveReclassify o)).get? k =
      some (MountTabDiffEntry.mk (some o) (some n) MountAction.move) := by
    rw [get?_modifyAt_self, hkq1]
    rfl
  have hq2 : reclassifiedFrom (pass1 ot nt) (modifyAt q1 k (moveReclassify o)) :=
    reclassifiedFrom_modify hq1 hkq1 rfl
  -- phase 2: a Move entry can never be matched again
  have hm2 : ∀ o' ∈ l₂, mountEntryMatch o'.GetSource o'.GetID
      (MountTabDiffEntry.mk (some o) (some n) MountAction.move) = false :=
    fun o' _ => mountEntryMatch_eq_false_of_action (by simp)
  obtain ⟨q3, os2, heq2, hq3, hsub2⟩ :=
    pass2Aux_decomp nt (pass1 ot nt) l₂ (modifyAt q1 k (moveReclassify o)) os1 hq2
  have hkq2lt : k < (modifyAt q1 k (moveReclassify o)).length := by
    rw [length_modifyAt]
    exact hkq1lt
  have hpres2 : (pass2Aux nt l₂
      (modifyAt q1 k (moveReclassify o) ++ umountEntriesOf os1)).get? k =
      some (MountTabDiffEntry.mk (some o) (some n) MountAction.move) := by
    apply pass2Aux_get_preserved nt l₂ _ ?_ hm2
    rw [List.get?_append hkq2lt]
    exact hq2k
  have hkq3lt : k < q3.length := by rw [hq3.1]; exact hklt
  have hq3k : q3.get? k =
      some (MountTabDiffEntry.mk (some o) (some n) MountAction.move) := by
    rw [heq2, List.get?_append hkq3lt] at hpres2
    exact hpres2
  have hD : GenerateDiff (some ot) (some nt) =
      q3 ++ umountEntriesOf (os1 ++ os2) := by
    rw [GenerateDiff_eq_passes]
    simp only [Option.getD_some]
    rw [hsplit, pass2Aux_concat]
    show pass2Aux nt l₂ (pass2Step nt (pass2Aux nt l₁ (pass1 ot nt)) o) = _
    rw [hostep]
    exact heq2
  refine ⟨?_, ?_, ?_⟩
  · rw [hD]
    exact List.mem_append.mpr (Or.inl (List.mem_iff_get?.mpr ⟨k, hq3k⟩))
  · intro e he hnf
    rw [hD] at he
    rcases List.mem_append.mp he with he1 | he2
    · obtain ⟨j, hj⟩ := List.mem_iff_get?.mp he1
      rcases hq3.2 j with hcase | ⟨e0, o', he0, -, hre⟩
      · rw [hj] at hcase
        have hjk : j = k := huniq' j e hcase.symm hnf
        subst hjk
        exact Option.some.inj (hj.symm.trans hq3k)
      · rw [hj] at hre
        cases Option.some.inj hre
        have hjk : j = k := huniq' j e0 he0 hnf
        subst hjk
        exact Option.some.inj (hj.symm.trans hq3k)
    · obtain ⟨o', -, rfl⟩ := mem_umountEntriesOf he2
      simp at hnf
  · intro e he hact
    rw [hD] at he
    rcases List.mem_append.mp he with he1 | he2
    · exfalso
      obtain ⟨j, hj⟩ := List.mem_iff_get?.mp he1
      rcases hq3.2 j with hcase | ⟨e0, o', he0, -, hre⟩
      · rw [hj] at hcase
        have hemem : e ∈ pass1Aux ot nt.entries [] := by
          rw [← pass1_def]
          exact List.mem_iff_get?.mpr ⟨j, hcase.symm⟩
        rcases pass1Aux_shape ot nt.entries e hemem with ⟨n', -, rfl⟩ |
          ⟨o'', n', -, -, rfl⟩ <;> simp at hact
      · rw [hj] at hre
        cases Option.some.inj hre
        simp [moveReclassify] at hact
    · obtain ⟨o', ho', rfl⟩ := mem_umountEntriesOf he2
      intro hoeq
      have ho'o : o' = o := Option.some.inj hoeq
      subst ho'o
      rcases List.mem_append.mp ho' with h1 | h2
      · exact hids.1 o' (hsub1.subset h1) rfl
      · exact hids.2 o' (hsub2.subset h2) rfl

theorem generateDiff_move_detection_witness :
    MountTabDiffEntry.mk (some fsOldA) (some fsNewB) MountAction.move ∈
      GenerateDiff (some tabOldA) (some tabNewB) :=
  (generateDiff_move_detection tabOldA tabNewB fsOldA fsNewB
    (by decide) (by decide) (by decide) (by decide) (by decide) (by decide)
    (by decide) (by decide)).1

end LibMount
